import Mathlib

/-!
Verification development for the Chatbook PDF retrieval pipeline.

Strings manipulated by the chunker are modelled as `List Char`; JavaScript
string operations (split on a separator, split on the sentence regex,
trim, concatenation) are translated into explicit list functions.
-/

namespace Chatbook

/-- JavaScript whitespace characters relevant to `\s`, `trim()` and the
blank-line separators used by the chunker (ASCII subset). -/
def isWs (c : Char) : Bool :=
  c == ' ' || c == '\n' || c == '\t' || c == '\r' || c == '\x0b' || c == '\x0c'

/-- Sentence-ending characters of the regex used by
`PDFProcessor.splitTextIntoChunks`. -/
def isSentEnd (c : Char) : Bool :=
  c == '.' || c == '!' || c == '?'

/-- Delete every whitespace character (used to state losslessness of
chunking up to whitespace). -/
def stripWs (l : List Char) : List Char :=
  l.filter (fun c => !isWs c)

/-- `trim()` of JavaScript: drop leading and trailing whitespace. -/
def trim (l : List Char) : List Char :=
  ((l.dropWhile isWs).reverse.dropWhile isWs).reverse

/-- Prepend a character onto the first piece of a split result. -/
def consHead (c : Char) : List (List Char) → List (List Char)
  | [] => [[c]]
  | p :: ps => (c :: p) :: ps

/-- `text.split(sep)` with the two-character separator of two newline
characters, as in the paragraph split of `splitTextIntoChunks`. -/
def splitOn2NL : List Char → List (List Char)
  | [] => [[]]
  | '\n' :: '\n' :: rest => [] :: splitOn2NL rest
  | c :: rest => consHead c (splitOn2NL rest)

/-- Whether a list starts with a whitespace character. -/
def firstIsWs : List Char → Bool
  | [] => false
  | c :: _ => isWs c

/-- Scanner for the sentence-boundary split. The Bool mode records whether
the scanner is currently consuming the whitespace run of a match. -/
def splitSentGo : Bool → List Char → List (List Char)
  | _, [] => [[]]
  | skipMode, c :: rest =>
    if skipMode && isWs c then
      splitSentGo true rest
    else if isSentEnd c && firstIsWs rest then
      [c] :: splitSentGo true rest
    else
      consHead c (splitSentGo false rest)

/-- `paragraph.split` on the sentence-boundary regex (split at a maximal
whitespace run immediately preceded by a sentence-ending character,
consuming the whitespace). -/
def splitSentences (p : List Char) : List (List Char) :=
  splitSentGo false p

/-- One iteration of the inner sentence loop of `splitTextIntoChunks`:
state is (sealed chunks, running chunk). -/
def procSentence (chunkSize : Nat) (st : List (List Char) × List Char)
    (s : List Char) : List (List Char) × List Char :=
  if st.2.length + s.length + 1 ≤ chunkSize then
    (st.1, st.2 ++ (if st.2.isEmpty then [] else [' ']) ++ s)
  else
    (if st.2.isEmpty then st.1 else st.1 ++ [trim st.2], s)

/-- One iteration of the paragraph loop of `splitTextIntoChunks`.
The JS test `paragraph.length > chunkSize * 1.5` is written
`3 * chunkSize < 2 * paragraph.length`. -/
def procParagraph (chunkSize : Nat) (st : List (List Char) × List Char)
    (p : List Char) : List (List Char) × List Char :=
  if 3 * chunkSize < 2 * p.length then
    (splitSentences p).foldl (procSentence chunkSize) st
  else if st.2.length + p.length + 2 ≤ chunkSize then
    (st.1, st.2 ++ (if st.2.isEmpty then [] else ['\n', '\n']) ++ p)
  else
    (if st.2.isEmpty then st.1 else st.1 ++ [trim st.2], p)

/-- The paragraph list: split on blank lines, dropping whitespace-only
paragraphs (`filter(p => p.trim().length > 0)`). -/
def paragraphsOf (text : List Char) : List (List Char) :=
  (splitOn2NL text).filter (fun p => !(trim p).isEmpty)

/-- Seal the final running chunk, if nonempty. -/
def finalChunksOf (st : List (List Char) × List Char) : List (List Char) :=
  if st.2.isEmpty then st.1 else st.1 ++ [trim st.2]

/-- `PDFProcessor.splitTextIntoChunks` from the source. -/
def splitTextIntoChunks (text : List Char) (chunkSize : Nat) : List (List Char) :=
  finalChunksOf ((paragraphsOf text).foldl (procParagraph chunkSize) ([], []))

/-- The batch decomposition performed by the `for` loop of
`RAGProcessor.processPDF`: `chunks.slice(i, i + B)` for `i = 0, B, 2B, ...`. -/
def batches {α : Type} (B : Nat) : List α → List (List α)
  | [] => []
  | a :: l => (a :: l.take (B - 1)) :: batches B (l.drop (B - 1))
termination_by l => l.length
decreasing_by
  simp only [List.length_drop, List.length_cons]
  omega

/-! ### Whitespace bookkeeping lemmas for the chunker -/

theorem stripWs_append (l₁ l₂ : List Char) :
    stripWs (l₁ ++ l₂) = stripWs l₁ ++ stripWs l₂ :=
  List.filter_append l₁ l₂

theorem stripWs_dropWhile (l : List Char) :
    stripWs (l.dropWhile isWs) = stripWs l := by
  induction l with
  | nil => rfl
  | cons c l ih =>
    rw [List.dropWhile_cons]
    by_cases h : isWs c
    · have h2 : stripWs (c :: l) = stripWs l := by
        simp [stripWs, List.filter_cons, h]
      rw [if_pos h, h2]
      exact ih
    · simp [h]

theorem stripWs_reverse (l : List Char) :
    stripWs l.reverse = (stripWs l).reverse :=
  List.filter_reverse _ l

theorem stripWs_trim (l : List Char) : stripWs (trim l) = stripWs l := by
  unfold trim
  rw [stripWs_reverse, stripWs_dropWhile, stripWs_reverse, stripWs_dropWhile,
    List.reverse_reverse]

theorem trim_length_le (l : List Char) : (trim l).length ≤ l.length := by
  unfold trim
  rw [List.length_reverse]
  calc (List.dropWhile isWs (l.dropWhile isWs).reverse).length
      ≤ (l.dropWhile isWs).reverse.length := (List.dropWhile_sublist _).length_le
    _ = (l.dropWhile isWs).length := List.length_reverse _
    _ ≤ l.length := (List.dropWhile_sublist _).length_le

theorem flatten_consHead (c : Char) (L : List (List Char)) :
    (consHead c L).flatten = c :: L.flatten := by
  cases L <;> simp [consHead]

theorem consHead_ne_nil (c : Char) (L : List (List Char)) : consHead c L ≠ [] := by
  cases L <;> simp [consHead]

theorem stripWs_flatten_splitOn2NL (l : List Char) :
    stripWs (splitOn2NL l).flatten = stripWs l := by
  induction l using splitOn2NL.induct with
  | case1 => rfl
  | case2 rest ih =>
    have h2 : stripWs ('\n' :: '\n' :: rest) = stripWs rest := by
      have hnl : (!isWs '\n') = false := by decide
      simp [stripWs, List.filter_cons, hnl]
    simp only [splitOn2NL, List.flatten_cons, List.nil_append, ih, h2]
  | case3 c rest hne ih =>
    have ih2 : List.filter (fun x => !isWs x) (splitOn2NL rest).flatten
        = List.filter (fun x => !isWs x) rest := ih
    simp only [splitOn2NL, flatten_consHead, stripWs, List.filter_cons, ih2]

theorem stripWs_flatten_splitSentGo (l : List Char) :
    ∀ b : Bool, stripWs (splitSentGo b l).flatten = stripWs l := by
  induction l with
  | nil => intro b; rfl
  | cons c rest ih =>
    intro b
    rw [splitSentGo]
    by_cases hsk : (b && isWs c) = true
    · have hc : isWs c = true := by
        have h := hsk
        simp only [Bool.and_eq_true] at h
        exact h.2
      have h2 : stripWs (c :: rest) = stripWs rest := by
        simp [stripWs, List.filter_cons, hc]
      rw [if_pos hsk, ih true, h2]
    · rw [if_neg hsk]
      by_cases hse : (isSentEnd c && firstIsWs rest) = true
      · have hc : isWs c = false := by
          have h1 : isSentEnd c = true := by
            have h := hse
            simp only [Bool.and_eq_true] at h
            exact h.1
          simp only [isSentEnd, Bool.or_eq_true, beq_iff_eq] at h1
          rcases h1 with (h | h) | h <;> subst h <;> rfl
        have h2 : stripWs (c :: rest) = c :: stripWs rest := by
          simp [stripWs, List.filter_cons, hc]
        rw [if_pos hse, h2]
        have h3 : stripWs (([c] :: splitSentGo true rest).flatten)
            = c :: stripWs (splitSentGo true rest).flatten := by
          simp [stripWs, List.filter_cons, hc]
        rw [h3, ih true]
      · rw [if_neg hse, flatten_consHead]
        have h2 : ∀ m : List Char, stripWs (c :: m)
            = (if (!isWs c) = true then [c] else []) ++ stripWs m := by
          intro m
          by_cases hc : isWs c <;> simp [stripWs, List.filter_cons, hc]
        rw [h2, h2, ih false]

theorem stripWs_flatten_splitSentences (p : List Char) :
    stripWs (splitSentences p).flatten = stripWs p :=
  stripWs_flatten_splitSentGo p false

/-- All characters held by a chunker state: sealed chunks plus the running
chunk. -/
def chunkContent (st : List (List Char) × List Char) : List Char :=
  st.1.flatten ++ st.2

theorem sw_content_procSentence (size : Nat) (st : List (List Char) × List Char)
    (s : List Char) :
    stripWs (chunkContent (procSentence size st s))
      = stripWs (chunkContent st) ++ stripWs s := by
  unfold procSentence chunkContent
  by_cases hfit : st.2.length + s.length + 1 ≤ size
  · rw [if_pos hfit]
    by_cases he : st.2.isEmpty
    · have h2 : st.2 = [] := List.isEmpty_iff.mp he
      simp [stripWs_append, he, h2]
    · have h1 : stripWs (' ' :: s) = stripWs s := by
        have hw : isWs ' ' = true := by decide
        simp [stripWs, List.filter_cons, hw]
      simp [stripWs_append, he, h1]
  · rw [if_neg hfit]
    by_cases he : st.2.isEmpty
    · have h2 : st.2 = [] := List.isEmpty_iff.mp he
      simp [stripWs_append, he, h2]
    · simp [stripWs_append, he, List.flatten_append, stripWs_trim]

theorem sw_content_foldSent (size : Nat) (ss : List (List Char)) :
    ∀ st, stripWs (chunkContent (ss.foldl (procSentence size) st))
      = stripWs (chunkContent st) ++ stripWs ss.flatten := by
  induction ss with
  | nil => intro st; simp [stripWs]
  | cons s ss ih =>
    intro st
    rw [List.foldl_cons, ih, sw_content_procSentence]
    simp [stripWs_append, List.flatten_cons, List.append_assoc]

theorem sw_content_procParagraph (size : Nat) (st : List (List Char) × List Char)
    (p : List Char) :
    stripWs (chunkContent (procParagraph size st p))
      = stripWs (chunkContent st) ++ stripWs p := by
  unfold procParagraph
  by_cases hbig : 3 * size < 2 * p.length
  · rw [if_pos hbig, sw_content_foldSent, stripWs_flatten_splitSentences]
  · rw [if_neg hbig]
    by_cases hfit : st.2.length + p.length + 2 ≤ size
    · rw [if_pos hfit]
      by_cases he : st.2.isEmpty
      · have h2 : st.2 = [] := List.isEmpty_iff.mp he
        simp [chunkContent, stripWs_append, he, h2]
      · have h1 : stripWs ('\n' :: '\n' :: p) = stripWs p := by
          have hw : isWs '\n' = true := by decide
          simp [stripWs, List.filter_cons, hw]
        simp [chunkContent, stripWs_append, he, h1]
    · rw [if_neg hfit]
      by_cases he : st.2.isEmpty
      · have h2 : st.2 = [] := List.isEmpty_iff.mp he
        simp [chunkContent, stripWs_append, he, h2]
      · simp [chunkContent, stripWs_append, he, List.flatten_append, stripWs_trim]

theorem sw_content_foldPara (size : Nat) (ps : List (List Char)) :
    ∀ st, stripWs (chunkContent (ps.foldl (procParagraph size) st))
      = stripWs (chunkContent st) ++ stripWs ps.flatten := by
  induction ps with
  | nil => intro st; simp [stripWs]
  | cons p ps ih =>
    intro st
    rw [List.foldl_cons, ih, sw_content_procParagraph]
    simp [stripWs_append, List.flatten_cons, List.append_assoc]

theorem sw_finalChunks (st : List (List Char) × List Char) :
    stripWs (finalChunksOf st).flatten = stripWs (chunkContent st) := by
  unfold finalChunksOf chunkContent
  by_cases he : st.2.isEmpty
  · have h2 : st.2 = [] := List.isEmpty_iff.mp he
    simp [he, h2]
  · simp [he, List.flatten_append, stripWs_append, stripWs_trim]

theorem sw_flatten_filter_paragraphs (L : List (List Char)) :
    stripWs (L.filter (fun p => !(trim p).isEmpty)).flatten
      = stripWs L.flatten := by
  induction L with
  | nil => rfl
  | cons p L ih =>
    rw [List.filter_cons]
    by_cases h : (!(trim p).isEmpty) = true
    · simp only [h, if_true, List.flatten_cons, stripWs_append, ih]
    · have h3 : (trim p).isEmpty = true := by simpa using h
      have h4 : stripWs p = [] := by
        rw [← stripWs_trim, List.isEmpty_iff.mp h3]; rfl
      rw [if_neg h, List.flatten_cons, stripWs_append, h4, List.nil_append, ih]

theorem sw_paragraphsOf (text : List Char) :
    stripWs (paragraphsOf text).flatten = stripWs text := by
  unfold paragraphsOf
  rw [sw_flatten_filter_paragraphs, stripWs_flatten_splitOn2NL]

/-- Claim C2: for every input text and every targetSize > 0, concatenating
the chunks produced by `splitTextIntoChunks`, in order, and deleting all
whitespace yields exactly the input text with all whitespace deleted. -/
theorem c2_chunking_lossless (text : List Char) (targetSize : Nat)
    (h : 0 < targetSize) :
    stripWs (splitTextIntoChunks text targetSize).flatten = stripWs text := by
  unfold splitTextIntoChunks
  rw [sw_finalChunks, sw_content_foldPara, sw_paragraphsOf]
  simp [chunkContent, stripWs]

/-- Concrete sample text for the C2 witness. -/
def c2SampleText : List Char :=
  "Hello world.\n\nThis is a test. Another sentence here!".toList

/-- Witness for C2 at a concrete text and target size 20. -/
theorem c2_chunking_lossless_witness :
    0 < 20
      ∧ stripWs (splitTextIntoChunks c2SampleText 20).flatten
          = stripWs c2SampleText :=
  ⟨by decide, c2_chunking_lossless c2SampleText 20 (by decide)⟩

/-! ### Chunk-size invariants (C3) -/

/-- A produced chunk is either within the 1.5 x target bound, or is the
trim of a single sentence longer than the target, coming from the
sentence split of an oversized paragraph. -/
def GoodChunk (text : List Char) (size : Nat) (c : List Char) : Prop :=
  2 * c.length ≤ 3 * size ∨
    ∃ p, p ∈ paragraphsOf text ∧ 3 * size < 2 * p.length ∧
      ∃ s, s ∈ splitSentences p ∧ c = trim s ∧ size < s.length

/-- Invariant on the running chunk of the fold. -/
def CurOK (text : List Char) (size : Nat) (cur : List Char) : Prop :=
  cur = [] ∨ cur.length ≤ size ∨
    (∃ p, p ∈ paragraphsOf text ∧ 3 * size < 2 * p.length ∧ cur ∈ splitSentences p) ∨
    (∃ p, p ∈ paragraphsOf text ∧ cur = p ∧ 2 * p.length ≤ 3 * size)

/-- Invariant on a whole chunker state. -/
def ChunkInv (text : List Char) (size : Nat)
    (st : List (List Char) × List Char) : Prop :=
  (∀ c ∈ st.1, GoodChunk text size c) ∧ CurOK text size st.2

theorem goodChunk_of_curOK {text : List Char} {size : Nat} {cur : List Char}
    (h : CurOK text size cur) : GoodChunk text size (trim cur) := by
  rcases h with h | h | ⟨p, hp, hbig, hs⟩ | ⟨p, hp, hcur, hle⟩
  · subst h
    left
    have ht : trim ([] : List Char) = [] := rfl
    rw [ht]
    simp
  · left
    have := trim_length_le cur
    omega
  · by_cases hlen : 2 * (trim cur).length ≤ 3 * size
    · left; exact hlen
    · right
      refine ⟨p, hp, hbig, cur, hs, rfl, ?_⟩
      have := trim_length_le cur
      omega
  · subst hcur
    left
    have := trim_length_le cur
    omega

theorem inv_procSentence {text : List Char} {size : Nat} {p : List Char}
    (hp : p ∈ paragraphsOf text) (hbig : 3 * size < 2 * p.length)
    {s : List Char} (hs : s ∈ splitSentences p)
    {st : List (List Char) × List Char} (h : ChunkInv text size st) :
    ChunkInv text size (procSentence size st s) := by
  obtain ⟨hchunks, hcur⟩ := h
  unfold procSentence
  by_cases hfit : st.2.length + s.length + 1 ≤ size
  · rw [if_pos hfit]
    refine ⟨hchunks, ?_⟩
    right; left
    by_cases he : st.2.isEmpty
    · have h2 : st.2 = [] := List.isEmpty_iff.mp he
      simp only [he, if_true, List.length_append]
      rw [h2] at hfit ⊢
      simp only [List.length_nil] at hfit ⊢
      omega
    · simp only [he, if_false, List.length_append, List.length_cons,
        List.length_nil]
      simp [List.length_append]
      omega
  · rw [if_neg hfit]
    refine ⟨?_, ?_⟩
    · intro c hc
      by_cases he : st.2.isEmpty
      · simp only [if_pos he] at hc
        exact hchunks c hc
      · simp only [if_neg he] at hc
        rcases List.mem_append.mp hc with hmem | hmem
        · exact hchunks c hmem
        · rw [List.mem_singleton.mp hmem]
          exact goodChunk_of_curOK hcur
    · right; right; left
      exact ⟨p, hp, hbig, hs⟩

theorem inv_foldSent {text : List Char} {size : Nat} {p : List Char}
    (hp : p ∈ paragraphsOf text) (hbig : 3 * size < 2 * p.length)
    (ss : List (List Char)) (hss : ∀ s ∈ ss, s ∈ splitSentences p) :
    ∀ st, ChunkInv text size st →
      ChunkInv text size (ss.foldl (procSentence size) st) := by
  induction ss with
  | nil => intro st h; exact h
  | cons s ss ih =>
    intro st h
    rw [List.foldl_cons]
    exact ih (fun x hx => hss x (List.mem_cons_of_mem s hx))
      _ (inv_procSentence hp hbig (hss s (List.mem_cons_self s ss)) h)

theorem inv_procParagraph {text : List Char} {size : Nat} {p : List Char}
    (hp : p ∈ paragraphsOf text) {st : List (List Char) × List Char}
    (h : ChunkInv text size st) :
    ChunkInv text size (procParagraph size st p) := by
  obtain ⟨hchunks, hcur⟩ := h
  unfold procParagraph
  by_cases hbig : 3 * size < 2 * p.length
  · rw [if_pos hbig]
    exact inv_foldSent hp hbig (splitSentences p) (fun s hs => hs) st ⟨hchunks, hcur⟩
  · rw [if_neg hbig]
    by_cases hfit : st.2.length + p.length + 2 ≤ size
    · rw [if_pos hfit]
      refine ⟨hchunks, ?_⟩
      right; left
      by_cases he : st.2.isEmpty
      · have h2 : st.2 = [] := List.isEmpty_iff.mp he
        rw [h2] at hfit
        simp only [he, if_true, h2, List.length_nil, List.nil_append] at hfit ⊢
        simp [List.length_append]
        omega
      · simp only [he, if_false]
        simp [List.length_append]
        omega
    · rw [if_neg hfit]
      refine ⟨?_, ?_⟩
      · intro c hc
        by_cases he : st.2.isEmpty
        · simp only [if_pos he] at hc
          exact hchunks c hc
        · simp only [if_neg he] at hc
          rcases List.mem_append.mp hc with hmem | hmem
          · exact hchunks c hmem
          · rw [List.mem_singleton.mp hmem]
            exact goodChunk_of_curOK hcur
      · right; right; right
        exact ⟨p, hp, rfl, by omega⟩

theorem inv_foldPara {text : List Char} {size : Nat}
    (ps : List (List Char)) (hps : ∀ q ∈ ps, q ∈ paragraphsOf text) :
    ∀ st, ChunkInv text size st →
      ChunkInv text size (ps.foldl (procParagraph size) st) := by
  induction ps with
  | nil => intro st h; exact h
  | cons p ps ih =>
    intro st h
    rw [List.foldl_cons]
    exact ih (fun x hx => hps x (List.mem_cons_of_mem p hx))
      _ (inv_procParagraph (hps p (List.mem_cons_self p ps)) h)

theorem goodChunk_of_mem {text : List Char} {size : Nat} {c : List Char}
    (hc : c ∈ splitTextIntoChunks text size) : GoodChunk text size c := by
  unfold splitTextIntoChunks at hc
  have hinv : ChunkInv text size
      ((paragraphsOf text).foldl (procParagraph size) ([], [])) :=
    inv_foldPara (paragraphsOf text) (fun q hq => hq) ([], [])
      ⟨by intro x hx; exact absurd hx (List.not_mem_nil x), Or.inl rfl⟩
  unfold finalChunksOf at hc
  by_cases he : ((paragraphsOf text).foldl (procParagraph size) ([], [])).2.isEmpty
  · rw [if_pos he] at hc
    exact hinv.1 c hc
  · rw [if_neg he] at hc
    rcases List.mem_append.mp hc with hmem | hmem
    · exact hinv.1 c hmem
    · rw [List.mem_singleton.mp hmem]
      exact goodChunk_of_curOK hinv.2

/-! ### Oversized sentences are always sealed whole (C3, second half) -/

theorem chunks_sub_procSentence (size : Nat) (st : List (List Char) × List Char)
    (s : List Char) {c : List Char} (hc : c ∈ st.1) :
    c ∈ (procSentence size st s).1 := by
  unfold procSentence
  by_cases hfit : st.2.length + s.length + 1 ≤ size
  · rw [if_pos hfit]; exact hc
  · rw [if_neg hfit]
    by_cases he : st.2.isEmpty
    · simp only [if_pos he]; exact hc
    · simp only [if_neg he]
      exact List.mem_append_left _ hc

theorem chunks_sub_foldSent (size : Nat) (ss : List (List Char)) :
    ∀ st {c : List Char}, c ∈ st.1 →
      c ∈ (ss.foldl (procSentence size) st).1 := by
  induction ss with
  | nil => intro st c hc; exact hc
  | cons s ss ih =>
    intro st c hc
    rw [List.foldl_cons]
    exact ih _ (chunks_sub_procSentence size st s hc)

theorem chunks_sub_procParagraph (size : Nat) (st : List (List Char) × List Char)
    (p : List Char) {c : List Char} (hc : c ∈ st.1) :
    c ∈ (procParagraph size st p).1 := by
  unfold procParagraph
  by_cases hbig : 3 * size < 2 * p.length
  · rw [if_pos hbig]
    exact chunks_sub_foldSent size (splitSentences p) st hc
  · rw [if_neg hbig]
    by_cases hfit : st.2.length + p.length + 2 ≤ size
    · rw [if_pos hfit]; exact hc
    · rw [if_neg hfit]
      by_cases he : st.2.isEmpty
      · simp only [if_pos he]; exact hc
      · simp only [if_neg he]
        exact List.mem_append_left _ hc

theorem chunks_sub_foldPara (size : Nat) (ps : List (List Char)) :
    ∀ st {c : List Char}, c ∈ st.1 →
      c ∈ (ps.foldl (procParagraph size) st).1 := by
  induction ps with
  | nil => intro st c hc; exact hc
  | cons p ps ih =>
    intro st c hc
    rw [List.foldl_cons]
    exact ih _ (chunks_sub_procParagraph size st p hc)

theorem mem_finalChunksOf (st : List (List Char) × List Char) {c : List Char}
    (hc : c ∈ st.1) : c ∈ finalChunksOf st := by
  unfold finalChunksOf
  by_cases he : st.2.isEmpty
  · rw [if_pos he]; exact hc
  · rw [if_neg he]
    exact List.mem_append_left _ hc

theorem cur_big_procSentence (size : Nat) (st : List (List Char) × List Char)
    (s : List Char) (hbig : size < st.2.length) :
    trim st.2 ∈ (procSentence size st s).1 := by
  unfold procSentence
  rw [if_neg (by omega)]
  have he : st.2.isEmpty = false := by
    cases h2 : st.2 with
    | nil => rw [h2] at hbig; simp at hbig
    | cons a l => rfl
  simp only [he, if_false]
  simp

theorem cur_big_foldSent (size : Nat) (ss : List (List Char))
    (st : List (List Char) × List Char) (hbig : size < st.2.length) :
    ss = [] ∨ trim st.2 ∈ (ss.foldl (procSentence size) st).1 := by
  cases ss with
  | nil => exact Or.inl rfl
  | cons s ss =>
    right
    rw [List.foldl_cons]
    exact chunks_sub_foldSent size ss _ (cur_big_procSentence size st s hbig)

theorem splitSentences_ne_nil (p : List Char) : splitSentences p ≠ [] := by
  unfold splitSentences
  cases p with
  | nil => simp [splitSentGo]
  | cons c rest =>
    rw [splitSentGo]
    simp only [Bool.false_and]
    by_cases h2 : (isSentEnd c && firstIsWs rest) = true
    · simp [h2]
    · simp [h2, consHead_ne_nil]

theorem cur_big_flushed (size : Nat) (ps : List (List Char)) :
    ∀ st : List (List Char) × List Char, size < st.2.length →
      trim st.2 ∈ finalChunksOf (ps.foldl (procParagraph size) st) := by
  induction ps with
  | nil =>
    intro st hbig
    unfold finalChunksOf
    have he : st.2.isEmpty = false := by
      cases h2 : st.2 with
      | nil => rw [h2] at hbig; simp at hbig
      | cons a l => rfl
    simp only [List.foldl_nil, he, if_false]
    simp
  | cons p ps ih =>
    intro st hbig
    have hmem : trim st.2 ∈ (procParagraph size st p).1 := by
      unfold procParagraph
      by_cases hbig2 : 3 * size < 2 * p.length
      · rw [if_pos hbig2]
        obtain ⟨s, ss, hsplit⟩ : ∃ s ss, splitSentences p = s :: ss := by
          cases hsp : splitSentences p with
          | nil => exact absurd hsp (splitSentences_ne_nil p)
          | cons s ss => exact ⟨s, ss, rfl⟩
        rw [hsplit, List.foldl_cons]
        exact chunks_sub_foldSent size ss _ (cur_big_procSentence size st s hbig)
      · rw [if_neg hbig2, if_neg (by omega)]
        have he : st.2.isEmpty = false := by
          cases h2 : st.2 with
          | nil => rw [h2] at hbig; simp at hbig
          | cons a l => rfl
        simp only [he, if_false]
        simp
    rw [List.foldl_cons]
    exact mem_finalChunksOf _ (chunks_sub_foldPara size ps _ hmem)

theorem oversized_sentence_sealed {text : List Char} {size : Nat}
    {p s : List Char} (hp : p ∈ paragraphsOf text)
    (hbig : 3 * size < 2 * p.length) (hs : s ∈ splitSentences p)
    (hlen : size < s.length) :
    trim s ∈ splitTextIntoChunks text size := by
  obtain ⟨l₁, l₂, hpar⟩ := List.append_of_mem hp
  obtain ⟨m₁, m₂, hsent⟩ := List.append_of_mem hs
  unfold splitTextIntoChunks
  rw [hpar, List.foldl_append, List.foldl_cons]
  have hpp : procParagraph size (List.foldl (procParagraph size) ([], []) l₁) p
      = (splitSentences p).foldl (procSentence size)
          (List.foldl (procParagraph size) ([], []) l₁) := by
    unfold procParagraph
    rw [if_pos hbig]
  rw [hpp, hsent, List.foldl_append, List.foldl_cons]
  set st1 := List.foldl (procSentence size)
    (List.foldl (procParagraph size) ([], []) l₁) m₁ with hst1
  have hps : procSentence size st1 s
      = (if st1.2.isEmpty then st1.1 else st1.1 ++ [trim st1.2], s) := by
    unfold procSentence
    rw [if_neg (by omega)]
  rw [hps]
  rcases cur_big_foldSent size m₂
      (if st1.2.isEmpty then st1.1 else st1.1 ++ [trim st1.2], s)
      (by simpa using hlen) with hm | hmem
  · rw [hm, List.foldl_nil]
    exact cur_big_flushed size l₂ _ (by simpa using hlen)
  · exact mem_finalChunksOf _ (chunks_sub_foldPara size l₂ _ hmem)

/-- Claim C3 (amended): every chunk produced by `splitTextIntoChunks` either
has length at most 1.5 x targetSize, or is the whitespace-trim of a single
sentence longer than targetSize taken from the sentence split of an
oversized paragraph; such oversized sentences are emitted whole (their trim
is a chunk), never truncated or split.  There may be several oversized
chunks, not only one. -/
theorem c3_chunk_size_bound (text : List Char) (targetSize : Nat)
    (h : 0 < targetSize) :
    (∀ c ∈ splitTextIntoChunks text targetSize,
        2 * c.length ≤ 3 * targetSize ∨
          ∃ p, p ∈ paragraphsOf text ∧ 3 * targetSize < 2 * p.length ∧
            ∃ s, s ∈ splitSentences p ∧ c = trim s ∧ targetSize < s.length)
    ∧ (∀ p ∈ paragraphsOf text, 3 * targetSize < 2 * p.length →
        ∀ s ∈ splitSentences p, targetSize < s.length →
          trim s ∈ splitTextIntoChunks text targetSize) :=
  ⟨fun _ hc => goodChunk_of_mem hc,
   fun _ hp hbig _ hs hlen => oversized_sentence_sealed hp hbig hs hlen⟩

/-- Concrete text whose chunking produces two oversized chunks. -/
def c3CexText : List Char := "aaaa. bbbb".toList

/-- One of the two oversized chunks of `c3CexText` at target size 2. -/
def c3CexChunk : List Char := "aaaa.".toList

/-- Counterexample to C3 as stated: with targetSize 2, the text
`aaaa. bbbb` produces two chunks, both longer than 1.5 x targetSize, so
"at most one oversized chunk" is false. -/
theorem c3_counterexample :
    ¬ ((splitTextIntoChunks c3CexText 2).countP
        (fun c => decide (3 * 2 < 2 * c.length)) ≤ 1) := by decide

/-- Witness for the amended C3 at a concrete chunk. -/
theorem c3_chunk_size_bound_witness :
    0 < 2
      ∧ (2 * c3CexChunk.length ≤ 3 * 2 ∨
          ∃ p, p ∈ paragraphsOf c3CexText ∧ 3 * 2 < 2 * p.length ∧
            ∃ s, s ∈ splitSentences p ∧ c3CexChunk = trim s ∧ 2 < s.length) :=
  ⟨by decide,
   (c3_chunk_size_bound c3CexText 2 (by decide)).1 c3CexChunk (by decide)⟩

/-! ### Embedding batches (C4) -/

theorem batches_flatten {α : Type} (B : Nat) (l : List α) :
    (batches B l).flatten = l := by
  induction l using batches.induct B with
  | case1 => simp [batches]
  | case2 a l ih =>
    rw [batches]
    simp only [List.flatten_cons, ih]
    rw [List.cons_append, List.take_append_drop]

theorem batches_length {α : Type} (B : Nat) (hB : 1 ≤ B) (l : List α) :
    (batches B l).length = (l.length + B - 1) / B := by
  induction l using batches.induct B with
  | case1 =>
    rw [batches]
    have h1 : (B - 1) / B = 0 := Nat.div_eq_of_lt (by omega)
    simp [h1]
  | case2 a l ih =>
    rw [batches]
    simp only [List.length_cons, ih, List.length_drop]
    have e1 : l.length + 1 + B - 1 = l.length + B := by omega
    rw [e1, Nat.add_div_right _ (by omega : 0 < B)]
    by_cases hc : B - 1 ≤ l.length
    · have e2 : l.length - (B - 1) + B - 1 = l.length := by omega
      rw [e2]
    · have e2 : l.length - (B - 1) + B - 1 = B - 1 := by omega
      rw [e2]
      have h3 : (B - 1) / B = 0 := Nat.div_eq_of_lt (by omega)
      have h4 : l.length / B = 0 := Nat.div_eq_of_lt (by omega)
      omega

theorem batches_mem_size {α : Type} (B : Nat) (hB : 1 ≤ B) (l : List α) :
    ∀ b ∈ batches B l, b.length ≤ B ∧ b ≠ [] := by
  induction l using batches.induct B with
  | case1 =>
    rw [batches]
    intro b hb
    exact absurd hb (List.not_mem_nil b)
  | case2 a l ih =>
    rw [batches]
    intro b hb
    rcases List.mem_cons.mp hb with hb | hb
    · subst hb
      constructor
      · simp only [List.length_cons, List.length_take]
        omega
      · simp
    · exact ih b hb

theorem batches_map_flatten {α β : Type} (f : α → β) (B : Nat) (l : List α) :
    ((batches B l).map (List.map f)).flatten = l.map f := by
  rw [← List.map_flatten, batches_flatten]

theorem batches_step {α : Type} (B : Nat) (hB : 1 ≤ B) (a : α) (l : List α) :
    batches B (a :: l) = (a :: l).take B :: batches B ((a :: l).drop B) := by
  obtain ⟨B2, rfl⟩ : ∃ B2, B = B2 + 1 := ⟨B - 1, by omega⟩
  rw [batches]
  simp [List.take_succ_cons, List.drop_succ_cons]

theorem batches_sizes_250_100 :
    (batches 100 (List.range 250)).map List.length = [100, 100, 50] := by
  have step : ∀ (l : List Nat), l ≠ [] →
      batches 100 l = l.take 100 :: batches 100 (l.drop 100) := by
    intro l hl
    cases l with
    | nil => exact absurd rfl hl
    | cons a l => exact batches_step 100 (by omega) a l
  have h0 : (List.range 250).length = 250 := List.length_range 250
  have hne0 : List.range 250 ≠ [] := by
    intro h
    rw [h] at h0
    simp at h0
  rw [step _ hne0]
  have h1 : ((List.range 250).drop 100).length = 150 := by
    rw [List.length_drop, h0]
  have hne1 : (List.range 250).drop 100 ≠ [] := by
    intro h
    rw [h] at h1
    simp at h1
  rw [step _ hne1]
  have h2 : (((List.range 250).drop 100).drop 100).length = 50 := by
    rw [List.length_drop, h1]
  have hne2 : ((List.range 250).drop 100).drop 100 ≠ [] := by
    intro h
    rw [h] at h2
    simp at h2
  rw [step _ hne2]
  have h3 : ((((List.range 250).drop 100).drop 100).drop 100).length = 0 := by
    rw [List.length_drop, h2]
  have hnil : (((List.range 250).drop 100).drop 100).drop 100 = [] :=
    List.eq_nil_of_length_eq_zero h3
  rw [hnil]
  have hb : batches 100 ([] : List Nat) = [] := by rw [batches]
  rw [hb]
  simp only [List.map_cons, List.map_nil, List.length_take, h0, h1, h2]
  norm_num

/-- Claim C4: embedding a sequence of N chunks with batch size B issues
exactly the batches produced by consecutive slicing: there are
ceil(N / B) batches, each nonempty of size at most B, their concatenation
is the chunk sequence in order, and mapping the embedding service over
each batch and concatenating yields one vector per chunk in input order;
250 chunks with B = 100 give batch sizes 100, 100, 50. -/
theorem c4_embedding_batches {α β : Type} (embed : α → β) (chunks : List α)
    (B : Nat) (hB : 1 ≤ B) :
    (batches B chunks).length = (chunks.length + B - 1) / B
    ∧ (∀ b ∈ batches B chunks, b.length ≤ B ∧ b ≠ [])
    ∧ (batches B chunks).flatten = chunks
    ∧ ((batches B chunks).map (List.map embed)).flatten = chunks.map embed
    ∧ (batches 100 (List.range 250)).map List.length = [100, 100, 50] :=
  ⟨batches_length B hB chunks, batches_mem_size B hB chunks,
   batches_flatten B chunks, batches_map_flatten embed B chunks,
   batches_sizes_250_100⟩

/-- Witness for C4 at concrete inputs. -/
theorem c4_embedding_batches_witness :
    1 ≤ 2
      ∧ ((batches 2 [10, 20, 30]).length = (3 + 2 - 1) / 2
          ∧ (∀ b ∈ batches 2 [10, 20, 30], b.length ≤ 2 ∧ b ≠ [])
          ∧ (batches 2 [10, 20, 30]).flatten = [10, 20, 30]
          ∧ ((batches 2 [10, 20, 30]).map (List.map (fun n => n + 1))).flatten
              = [10, 20, 30].map (fun n => n + 1)
          ∧ (batches 100 (List.range 250)).map List.length = [100, 100, 50]) :=
  ⟨by decide, c4_embedding_batches (fun n => n + 1) [10, 20, 30] 2 (by decide)⟩

/-! ### Vector index lifecycle events (C5) -/

/-- Vector store operations performed during an ingestion run. -/
inductive VEvent where
  | reset : VEvent
  | create (dim : Nat) : VEvent
  | upsert (count : Nat) : VEvent
deriving DecidableEq

/-- Whether an event is a collection creation. -/
def isCreate : VEvent → Bool
  | .create _ => true
  | _ => false

namespace RAGProcessor

/-- Events of the batch loop of `RAGProcessor.processPDF`: per batch,
embed it, create the index on the first batch with nonempty embeddings
(using the dimension of its first vector), then upsert the batch. -/
def loopEvents (embed : String → List Int) :
    List (List String) → Bool → List VEvent
  | [], _ => []
  | b :: bs, created =>
    match created, b.map embed with
    | false, e :: _ =>
      VEvent.create e.length :: VEvent.upsert b.length :: loopEvents embed bs true
    | false, [] => VEvent.upsert b.length :: loopEvents embed bs false
    | true, _ => VEvent.upsert b.length :: loopEvents embed bs true

/-- Events of a whole `RAGProcessor.processPDF` run: `cleanup()` first,
then the batch loop over slices of 100. -/
def processPDFEvents (embed : String → List Int) (chunks : List String) :
    List VEvent :=
  VEvent.reset :: loopEvents embed (batches 100 chunks) false

end RAGProcessor

namespace PDFProcessor

/-- Events of `PDFProcessor.processPDF` (single embedding batch): throws
before touching the store when no embeddings were produced, otherwise
deletes, creates with the first vector dimension, then upserts once. -/
def processPDFEvents (embed : String → List Int) (chunks : List String) :
    Except String (List VEvent) :=
  match chunks.map embed with
  | [] => Except.error "Failed to generate embeddings"
  | e :: _ =>
    Except.ok [VEvent.reset, VEvent.create e.length,
      VEvent.upsert chunks.length]

end PDFProcessor

theorem loopEvents_after_create (embed : String → List Int) :
    ∀ bs : List (List String),
      RAGProcessor.loopEvents embed bs true
        = bs.map (fun b => VEvent.upsert b.length) := by
  intro bs
  induction bs with
  | nil => rfl
  | cons b bs ih =>
    rw [RAGProcessor.loopEvents]
    simp only [ih, List.map_cons]

theorem countP_upserts (bs : List (List String)) :
    (bs.map (fun b => VEvent.upsert b.length)).countP isCreate = 0 := by
  rw [List.countP_eq_zero]
  intro e he
  obtain ⟨b, hb, rfl⟩ := List.mem_map.mp he
  simp [isCreate]

/-- Claim C5: in every run that stores at least one vector, the events of
`RAGProcessor.processPDF` are exactly: reset, then one creation with the
dimension of the first vector of the first batch, then one upsert per
batch in order; in particular the creation is unique and lies strictly
after the reset and strictly before every upsert.  The single-batch
`PDFProcessor.processPDF` produces the same reset/create/upsert order. -/
theorem c5_index_lifecycle (embed : String → List Int) (c0 : String)
    (rest : List String) :
    RAGProcessor.processPDFEvents embed (c0 :: rest)
        = VEvent.reset :: VEvent.create (embed c0).length ::
            (batches 100 (c0 :: rest)).map (fun b => VEvent.upsert b.length)
    ∧ (RAGProcessor.processPDFEvents embed (c0 :: rest)).countP isCreate = 1
    ∧ PDFProcessor.processPDFEvents embed (c0 :: rest)
        = Except.ok [VEvent.reset, VEvent.create (embed c0).length,
            VEvent.upsert (c0 :: rest).length] := by
  have hb : batches 100 (c0 :: rest)
      = (c0 :: rest.take 99) :: batches 100 (rest.drop 99) := by
    rw [batches]
  have hstep : ∀ (l : List String) (bs : List (List String)),
      RAGProcessor.loopEvents embed ((c0 :: l) :: bs) false
        = VEvent.create (embed c0).length :: VEvent.upsert (c0 :: l).length
            :: RAGProcessor.loopEvents embed bs true := fun _ _ => rfl
  have h1 : RAGProcessor.processPDFEvents embed (c0 :: rest)
      = VEvent.reset :: VEvent.create (embed c0).length ::
          (batches 100 (c0 :: rest)).map (fun b => VEvent.upsert b.length) := by
    unfold RAGProcessor.processPDFEvents
    rw [hb, hstep, loopEvents_after_create, List.map_cons]
  refine ⟨h1, ?_, ?_⟩
  · rw [h1]
    simp only [List.countP_cons, countP_upserts, isCreate]
    rfl
  · rfl

/-! ### Chunk metadata records (C6) -/

/-- Metadata values (strings or numbers). -/
inductive MVal where
  | str (s : String) : MVal
  | num (n : Nat) : MVal
deriving DecidableEq

/-- Pair each element with its index, starting at `off`. -/
def withIdx {α : Type} (off : Nat) : List α → List (Nat × α)
  | [] => []
  | a :: l => (off, a) :: withIdx (off + 1) l

theorem withIdx_length {α : Type} (l : List α) :
    ∀ off, (withIdx off l).length = l.length := by
  induction l with
  | nil => intro off; rfl
  | cons a l ih => intro off; simp [withIdx, ih]

theorem withIdx_append {α : Type} (x : List α) :
    ∀ (y : List α) (off : Nat),
      withIdx off (x ++ y) = withIdx off x ++ withIdx (off + x.length) y := by
  induction x with
  | nil => intro y off; simp [withIdx]
  | cons a x ih =>
    intro y off
    simp only [List.cons_append, withIdx, List.length_cons, List.append_eq]
    rw [ih y (off + 1)]
    have e : off + 1 + x.length = off + (x.length + 1) := by omega
    rw [e]

theorem withIdx_map_shift {α β : Type} (f : Nat → α → β) (b : List α)
    (off : Nat) :
    ∀ j, (withIdx j b).map (fun jc => f (off + jc.1) jc.2)
      = (withIdx (off + j) b).map (fun kc => f kc.1 kc.2) := by
  induction b with
  | nil => intro j; rfl
  | cons a b ih =>
    intro j
    simp only [withIdx, List.map_cons, ih (j + 1)]
    have e : off + (j + 1) = off + j + 1 := by omega
    rw [e]

theorem withIdx_getElem {α β : Type} (f : Nat × α → β) (l : List α) :
    ∀ (off i : Nat) (h : i < l.length),
      ((withIdx off l).map f)[i]? = some (f (off + i, l[i])) := by
  induction l with
  | nil => intro off i h; exact absurd h (by simp)
  | cons a l ih =>
    intro off i h
    cases i with
    | zero => simp [withIdx]
    | succ i =>
      simp only [withIdx, List.map_cons, List.getElem?_cons_succ]
      rw [ih (off + 1) i (by simpa using h)]
      have e : off + 1 + i = off + (i + 1) := by omega
      rw [e]
      simp

namespace PDFProcessor

/-- Metadata object built for one chunk in `PDFProcessor.processPDF`. -/
def chunkMetadata (pdfTitle fileName author description : String)
    (pageCount : Nat) (filePath : String) (totalChunks : Nat)
    (chunk : String) (i : Nat) : List (String × MVal) :=
  [("text", MVal.str chunk), ("title", MVal.str pdfTitle),
   ("fileName", MVal.str fileName), ("author", MVal.str author),
   ("description", MVal.str description), ("pageCount", MVal.num pageCount),
   ("chunkIndex", MVal.num i), ("totalChunks", MVal.num totalChunks),
   ("source", MVal.str filePath)]

/-- The metadata array built by the preparation loop of
`PDFProcessor.processPDF` (one record per chunk, in order). -/
def metadataArray (pdfTitle fileName author description : String)
    (pageCount : Nat) (filePath : String) (chunks : List String) :
    List (List (String × MVal)) :=
  (withIdx 0 chunks).map (fun ic =>
    chunkMetadata pdfTitle fileName author description pageCount filePath
      chunks.length ic.2 ic.1)

end PDFProcessor

namespace RAGProcessor

/-- Metadata object built for one chunk in `RAGProcessor.processPDF`
(`chunkIndex: i + j` for batch offset `i` and in-batch index `j`). -/
def chunkMetadata (pdfTitle fileName : String) (totalChunks : Nat)
    (chunk : String) (idx : Nat) : List (String × MVal) :=
  [("text", MVal.str chunk), ("title", MVal.str pdfTitle),
   ("fileName", MVal.str fileName), ("chunkIndex", MVal.num idx),
   ("totalChunks", MVal.num totalChunks)]

/-- Metadata arrays over the batch loop of `RAGProcessor.processPDF`;
`off` is the loop variable `i`, advanced by the batch size 100. -/
def batchedMetadata (pdfTitle fileName : String) (totalChunks : Nat) :
    List (List String) → Nat → List (List (String × MVal))
  | [], _ => []
  | b :: bs, off =>
    (withIdx 0 b).map (fun jc =>
        chunkMetadata pdfTitle fileName totalChunks jc.2 (off + jc.1))
      ++ batchedMetadata pdfTitle fileName totalChunks bs (off + 100)

end RAGProcessor

theorem batchedMetadata_eq (t f : String) (N : Nat) (l : List String) :
    ∀ off, RAGProcessor.batchedMetadata t f N (batches 100 l) off
      = (withIdx off l).map (fun kc => RAGProcessor.chunkMetadata t f N kc.2 kc.1) := by
  induction l using batches.induct 100 with
  | case1 =>
    intro off
    rw [batches]
    rfl
  | case2 a l ih =>
    intro off
    rw [batches, RAGProcessor.batchedMetadata]
    rw [withIdx_map_shift (fun k c => RAGProcessor.chunkMetadata t f N c k)
      (a :: l.take 99) off 0]
    by_cases hlen : 99 ≤ l.length
    · have hfull : (a :: l.take 99).length = 100 := by
        simp only [List.length_cons, List.length_take]
        omega
      have hsplit : a :: l = (a :: l.take 99) ++ l.drop 99 := by
        rw [List.cons_append, List.take_append_drop]
      rw [ih, hsplit, withIdx_append, List.map_append, hfull]
      have e : off + 0 = off := by omega
      rw [e]
    · have hdrop : l.drop 99 = [] :=
        List.eq_nil_of_length_eq_zero (by rw [List.length_drop]; omega)
      have htake : l.take 99 = l := List.take_of_length_le (by omega)
      rw [hdrop, htake]
      have hb : batches 100 ([] : List String) = [] := by rw [batches]
      rw [hb, RAGProcessor.batchedMetadata, List.append_nil]
      have e : off + 0 = off := by omega
      rw [e]

/-! ### Search result shaping (C7) -/

/-- A record returned by the vector store query. -/
structure RawResult where
  score : Int
  metadata : Option (List (String × MVal))
deriving DecidableEq

/-- JavaScript truthiness of a metadata value. -/
def jsTruthy : MVal → Bool
  | .str s => !s.isEmpty
  | .num n => n != 0

/-- `a || b` on an optionally-present metadata value. -/
def jsOrV (o : Option MVal) (fallback : MVal) : MVal :=
  match o with
  | some v => if jsTruthy v then v else fallback
  | none => fallback

/-- A shaped search result. -/
structure SearchResult where
  text : MVal
  score : Int
  metadata : List (String × MVal)
deriving DecidableEq

namespace RAGProcessor

/-- The per-record mapping of `RAGProcessor.searchContent`:
`{score, metadata: metadata || \x7b\x7d, text: metadata.text || ""}`. -/
def searchMap (r : RawResult) : SearchResult :=
  let md := r.metadata.getD []
  { score := r.score
  , metadata := md
  , text := jsOrV (md.lookup "text") (MVal.str "") }

/-- `RAGProcessor.searchContent` result shaping over a query result list. -/
def searchContent (results : List RawResult) : List SearchResult :=
  results.map searchMap

end RAGProcessor

/-- `path.basename`: the part after the last slash or backslash. -/
def basename (p : String) : String :=
  String.mk ((p.toList.reverse.takeWhile (fun c => !(c == '/' || c == '\\'))).reverse)

/-- `path.basename(p, ".pdf")`: basename with a trailing `.pdf` removed. -/
def basenameNoPdf (p : String) : String :=
  let b := (basename p).toList
  String.mk
    (if b.reverse.take 4 == ['f', 'd', 'p', '.'] then (b.reverse.drop 4).reverse
     else b)

/-- The result formatting of `queryPdfTool` (fallback message for missing
text, metadata rebuilt from the queried path and the record). -/
def queryPdfFormat (pdfPath : String) (r : RawResult) : SearchResult :=
  let md := r.metadata.getD []
  { text := jsOrV (md.lookup "text")
      (MVal.str "No text content available for this document section")
  , score := r.score
  , metadata :=
      [("fileName", MVal.str (basename pdfPath)),
       ("title", jsOrV (md.lookup "title") (MVal.str (basenameNoPdf pdfPath))),
       ("source", jsOrV (md.lookup "source") (MVal.str (basename pdfPath)))] }

/-! ### Vector index reset (C8) -/

/-- Whether `pat` is a prefix of the second list. -/
def prefixOfList : List Char → List Char → Bool
  | [], _ => true
  | _ :: _, [] => false
  | a :: as, b :: bs => a == b && prefixOfList as bs

/-- Whether `pat` occurs as a contiguous sublist. -/
def containsSub (pat : List Char) : List Char → Bool
  | [] => pat.isEmpty
  | c :: rest => prefixOfList pat (c :: rest) || containsSub pat rest

/-- `s.includes(pat)` of JavaScript. -/
def strContains (s pat : String) : Bool := containsSub pat.toList s.toList

/-- Outcome of the underlying `deleteIndex` call. -/
inductive DelOutcome where
  | ok : DelOutcome
  | err (msg : String) : DelOutcome
deriving DecidableEq

namespace RAGProcessor

/-- `RAGProcessor.cleanup`: every delete failure is swallowed; the second
component records which log line was taken. -/
def cleanup (d : DelOutcome) : Except String Unit × String :=
  match d with
  | .ok => (Except.ok (), "deleted")
  | .err m =>
    if strContains m "not found" then (Except.ok (), "did not exist")
    else (Except.ok (), "warn: error deleting index")

end RAGProcessor

namespace PDFProcessor

/-- `PDFProcessor.cleanup`: swallows only a "not found" delete failure and
rethrows any other error. -/
def cleanup (d : DelOutcome) : Except String Unit :=
  match d with
  | .ok => Except.ok ()
  | .err m =>
    if strContains m "not found" then Except.ok () else Except.error m

/-- The inline collection reset inside `PDFProcessor.processPDF`: the
catch block swallows every delete error. -/
def inlineReset (d : DelOutcome) : Except String Unit :=
  match d with
  | .ok => Except.ok ()
  | .err _ => Except.ok ()

end PDFProcessor

/-! ### Retrieval entry point (C9) -/

/-- `query.trim()` on a whole string. -/
def strTrim (s : String) : String := String.mk (trim s.toList)

/-- JavaScript truthiness on an optional string (null and the empty string
are falsy). -/
def jsTruthyStr : Option String → Option String
  | some s => if s.isEmpty then none else some s
  | none => none

/-- Effective document resolution of `queryPdfTool`:
`context.filePath || getPdfPath()`, with the subsequent falsy check. -/
def resolvePdfPath (filePathArg stored : Option String) : Option String :=
  match jsTruthyStr filePathArg with
  | some s => some s
  | none => jsTruthyStr stored

/-- Output shape of `queryPdfTool`. -/
structure QueryPdfOut where
  results : List SearchResult
  query : String
  fileName : String
deriving DecidableEq

/-- `queryPdfTool.execute`: empty-query short-circuit, effective path
resolution, empty-result return when no document reference exists, and
result formatting otherwise; `raw` is the list returned by
`PDFProcessor.searchContent`. -/
def queryPdfExecute (query : String) (filePathArg stored : Option String)
    (raw : List RawResult) : QueryPdfOut :=
  if (strTrim query).isEmpty then
    { results := [], query := query, fileName := "" }
  else
    match resolvePdfPath filePathArg stored with
    | none => { results := [], query := query, fileName := "" }
    | some pdfPath =>
      { results := raw.map (queryPdfFormat pdfPath)
      , query := query
      , fileName := basename pdfPath }

/-! ### Persisted PDF state (C10) -/

/-- The persisted state record of pdf-storage.ts. -/
structure PdfState where
  lastProcessedPdfPath : Option String
  processingTimestamp : Option String
  metadata : List (String × MVal)
deriving DecidableEq

/-- The default state used when no state file exists. -/
def defaultState : PdfState :=
  { lastProcessedPdfPath := none, processingTimestamp := none, metadata := [] }

/-- `getPdfState`: read the stored record, falling back to the default. -/
def getPdfState (store : Option PdfState) : PdfState :=
  store.getD defaultState

/-- `savePdfState`: write the record as a unit. -/
def savePdfState (st : PdfState) : Option PdfState := some st

/-- `setLastProcessedPdfPath`: read the state, overwrite the path and the
timestamp, save. -/
def setLastProcessedPdfPath (store : Option PdfState) (pdfPath now : String) :
    Option PdfState :=
  let st := getPdfState store
  savePdfState
    { st with
      lastProcessedPdfPath := some pdfPath
      processingTimestamp := some now }

/-! ### Ingestion entry points and the stored path (C1) -/

/-- Output shape of `uploadPdfTool`. -/
structure UploadResult where
  success : Bool
  message : String
  chunks : Nat
deriving DecidableEq

/-- Successful result of `processor.processPDF`. -/
structure ProcOk where
  fileName : String
  chunks : Nat
deriving DecidableEq

/-- `uploadPdfTool.execute`: path validation, existence check, then the
stored-path update (`setPdfPath`), then processing whose outcome is the
`proc` argument; the second component is the stored path after the call.
The path is stored before processing, so it is `some filePath` in both the
success and the failure branch of `proc`. -/
def uploadPdfExecute (filePath : String) (fileExists : Bool)
    (proc : Except String ProcOk) (stored : Option String) :
    UploadResult × Option String :=
  if filePath.isEmpty then
    ({ success := false, message := "Please provide a valid PDF file path",
       chunks := 0 }, stored)
  else if !fileExists then
    ({ success := false, message := "File not found", chunks := 0 }, stored)
  else
    match proc with
    | Except.ok r =>
      ({ success := true, message := "Successfully processed PDF",
         chunks := r.chunks }, some filePath)
    | Except.error _ =>
      ({ success := false, message := "Error processing PDF", chunks := 0 },
       some filePath)

/-- Output shape of `pdfOperationStep`. -/
structure OpResult where
  success : Bool
  message : String
deriving DecidableEq

/-- The `process` branch of `pdfOperationStep`: the path is stored before
the existence check; an agent failure propagates (there is no catch) but
the path stays stored. -/
def pdfOperationProcess (filePath : Option String) (fileExists : Bool)
    (agent : Except String String) (stored : Option String) :
    Except String OpResult × Option String :=
  match jsTruthyStr filePath with
  | none =>
    (Except.ok
      { success := false
        message := "File path is required for PDF processing" }, stored)
  | some p =>
    if !fileExists then
      (Except.ok { success := false, message := "File not found" }, some p)
    else
      match agent with
      | Except.ok _ =>
        (Except.ok { success := true, message := "PDF processed successfully" },
         some p)
      | Except.error e => (Except.error e, some p)

/-- The default PDF path of initialize-pdf.ts. -/
def defaultPdfPath : String :=
  "D:/Mastra-Book/mastra-chatbook/src/mastra/data/pdf/Principles2.pdf"

/-- `initializePdf` of initialize-pdf.ts: the stored path is updated only
after a successful `processPDF`; all failures are caught and leave it
unchanged. -/
def initPdfOnStartup (fileExists : Bool) (proc : Except String Nat)
    (stored : Option String) : Option String :=
  if !fileExists then stored
  else
    match proc with
    | Except.ok _ => some defaultPdfPath
    | Except.error _ => stored

/-! ### Claim theorems C6 to C10 and C1 -/

/-- Claim C6 (amended): `PDFProcessor.processPDF` builds one metadata
record per chunk, the i-th carrying text = the chunk, chunkIndex = i,
totalChunks = N and the fields title, fileName, author, description and
source (the file path); `RAGProcessor.processPDF` also builds one record
per chunk with the correct global chunkIndex and totalChunks across
batches, but its records carry only text, title, fileName, chunkIndex and
totalChunks — no author, description or source fields. -/
theorem c6_chunk_metadata (t f a d : String) (pages : Nat) (src : String)
    (chunks : List String) :
    (PDFProcessor.metadataArray t f a d pages src chunks).length = chunks.length
    ∧ (∀ i (h : i < chunks.length),
        (PDFProcessor.metadataArray t f a d pages src chunks)[i]?
          = some (PDFProcessor.chunkMetadata t f a d pages src chunks.length
              chunks[i] i))
    ∧ (∀ (N : Nat) (c : String) (i : Nat),
        (PDFProcessor.chunkMetadata t f a d pages src N c i).lookup "text"
            = some (MVal.str c)
        ∧ (PDFProcessor.chunkMetadata t f a d pages src N c i).lookup "chunkIndex"
            = some (MVal.num i)
        ∧ (PDFProcessor.chunkMetadata t f a d pages src N c i).lookup "totalChunks"
            = some (MVal.num N)
        ∧ (PDFProcessor.chunkMetadata t f a d pages src N c i).lookup "source"
            = some (MVal.str src)
        ∧ (PDFProcessor.chunkMetadata t f a d pages src N c i).lookup "author"
            = some (MVal.str a)
        ∧ (PDFProcessor.chunkMetadata t f a d pages src N c i).lookup "description"
            = some (MVal.str d)
        ∧ (PDFProcessor.chunkMetadata t f a d pages src N c i).lookup "title"
            = some (MVal.str t)
        ∧ (PDFProcessor.chunkMetadata t f a d pages src N c i).lookup "fileName"
            = some (MVal.str f))
    ∧ RAGProcessor.batchedMetadata t f chunks.length (batches 100 chunks) 0
        = (withIdx 0 chunks).map (fun kc =>
            RAGProcessor.chunkMetadata t f chunks.length kc.2 kc.1)
    ∧ (∀ (N : Nat) (c : String) (k : Nat),
        (RAGProcessor.chunkMetadata t f N c k).lookup "text" = some (MVal.str c)
        ∧ (RAGProcessor.chunkMetadata t f N c k).lookup "chunkIndex"
            = some (MVal.num k)
        ∧ (RAGProcessor.chunkMetadata t f N c k).lookup "totalChunks"
            = some (MVal.num N)
        ∧ (RAGProcessor.chunkMetadata t f N c k).lookup "source" = none
        ∧ (RAGProcessor.chunkMetadata t f N c k).lookup "author" = none
        ∧ (RAGProcessor.chunkMetadata t f N c k).lookup "description" = none) := by
  refine ⟨?_, ?_, ?_, batchedMetadata_eq t f chunks.length chunks 0, ?_⟩
  · simp [PDFProcessor.metadataArray, withIdx_length]
  · intro i h
    unfold PDFProcessor.metadataArray
    rw [withIdx_getElem _ chunks 0 i h, Nat.zero_add]
  · intro N c i
    exact ⟨rfl, rfl, rfl, rfl, rfl, rfl, rfl, rfl⟩
  · intro N c k
    exact ⟨rfl, rfl, rfl, rfl, rfl, rfl⟩

/-- Counterexample to C6 as stated: the metadata records written by
`RAGProcessor.processPDF` carry no source, author or description field. -/
theorem c6_counterexample :
    (RAGProcessor.chunkMetadata "t" "f.pdf" 3 "chunk text" 0).lookup "source" = none
    ∧ (RAGProcessor.chunkMetadata "t" "f.pdf" 3 "chunk text" 0).lookup "author" = none
    ∧ (RAGProcessor.chunkMetadata "t" "f.pdf" 3 "chunk text" 0).lookup "description"
        = none :=
  ⟨rfl, rfl, rfl⟩

/-- Witness for C6 at a concrete one-chunk document. -/
theorem c6_chunk_metadata_witness :
    0 < 1
      ∧ (PDFProcessor.metadataArray "t" "f" "a" "d" 2 "s" ["c0"])[0]?
          = some (PDFProcessor.chunkMetadata "t" "f" "a" "d" 2 "s" 1 "c0" 0) :=
  ⟨by decide, by
    have h := (c6_chunk_metadata "t" "f" "a" "d" 2 "s" ["c0"]).2.1 0 (by decide)
    simpa using h⟩

/-- Claim C7 (amended): `RAGProcessor.searchContent` maps each record to
{text = metadata.text or "" when absent, score, the stored metadata}, in
the order returned by the index; `queryPdfTool` instead substitutes the
fallback message "No text content available for this document section"
for a missing text field and rebuilds metadata as fileName/title/source
derived from the queried path and the record. -/
theorem c7_result_shaping :
    (∀ (r : RawResult) (md : List (String × MVal)) (s : String),
        r.metadata = some md → md.lookup "text" = some (MVal.str s) →
          (RAGProcessor.searchMap r).text = MVal.str s)
    ∧ (∀ (r : RawResult) (md : List (String × MVal)),
        r.metadata = some md → md.lookup "text" = none →
          (RAGProcessor.searchMap r).text = MVal.str "")
    ∧ (∀ (r : RawResult) (md : List (String × MVal)),
        r.metadata = some md →
          (RAGProcessor.searchMap r).metadata = md
          ∧ (RAGProcessor.searchMap r).score = r.score)
    ∧ (∀ results : List RawResult,
        RAGProcessor.searchContent results = results.map RAGProcessor.searchMap
        ∧ (RAGProcessor.searchContent results).length = results.length)
    ∧ (∀ results : List RawResult,
        results.Pairwise (fun x y => y.score ≤ x.score) →
          (RAGProcessor.searchContent results).Pairwise
            (fun x y => y.score ≤ x.score))
    ∧ (∀ (path : String) (r : RawResult) (md : List (String × MVal)),
        r.metadata = some md → md.lookup "text" = none →
          (queryPdfFormat path r).text
            = MVal.str "No text content available for this document section")
    ∧ (∀ (path : String) (r : RawResult),
        (queryPdfFormat path r).metadata
          = [("fileName", MVal.str (basename path)),
             ("title", jsOrV ((r.metadata.getD []).lookup "title")
                (MVal.str (basenameNoPdf path))),
             ("source", jsOrV ((r.metadata.getD []).lookup "source")
                (MVal.str (basename path)))]) := by
  refine ⟨?_, ?_, ?_, ?_, ?_, ?_, ?_⟩
  · intro r md s hm ht
    simp only [RAGProcessor.searchMap, hm, Option.getD_some, ht, jsOrV]
    by_cases he : s.isEmpty
    · rw [(String.isEmpty_iff s).mp he]
      rfl
    · simp [jsTruthy, he]
  · intro r md hm ht
    simp [RAGProcessor.searchMap, hm, ht, jsOrV]
  · intro r md hm
    constructor <;> simp [RAGProcessor.searchMap, hm]
  · intro results
    exact ⟨rfl, by simp [RAGProcessor.searchContent]⟩
  · intro results h
    exact List.pairwise_map.mpr h
  · intro path r md hm ht
    simp [queryPdfFormat, hm, ht, jsOrV]
  · intro path r
    rfl

/-- A query result whose metadata has no text field. -/
def c7CexRecord : RawResult :=
  { score := 2, metadata := some [("title", MVal.str "T")] }

/-- Counterexample to C7 as stated: on a record without a text field,
`queryPdfTool` returns the fallback message instead of the empty string,
and a rebuilt metadata object instead of the stored one. -/
theorem c7_counterexample :
    (queryPdfFormat "docs/x.pdf" c7CexRecord).text
        = MVal.str "No text content available for this document section"
    ∧ (queryPdfFormat "docs/x.pdf" c7CexRecord).text ≠ MVal.str ""
    ∧ (queryPdfFormat "docs/x.pdf" c7CexRecord).metadata
        ≠ [("title", MVal.str "T")] := by
  refine ⟨rfl, by decide, by decide⟩

/-- Witness for C7 at a concrete record carrying a text field. -/
theorem c7_result_shaping_witness :
    ({ score := 1, metadata := some [("text", MVal.str "hello")] } : RawResult).metadata
        = some [("text", MVal.str "hello")]
    ∧ (RAGProcessor.searchMap
        { score := 1, metadata := some [("text", MVal.str "hello")] }).text
        = MVal.str "hello" :=
  ⟨rfl, c7_result_shaping.1 _ [("text", MVal.str "hello")] "hello" rfl (by decide)⟩

/-- Claim C8 (amended): reset on a collection that does not exist succeeds
in both implementations ("not found" is swallowed); `RAGProcessor.cleanup`
never propagates any delete failure (other failures are logged as a
warning); but `PDFProcessor.cleanup` rethrows every delete failure other
than "not found", while the inline reset of `PDFProcessor.processPDF`
swallows every delete failure. -/
theorem c8_reset_behaviour :
    (∀ d, (RAGProcessor.cleanup d).1 = Except.ok ())
    ∧ (∀ m, strContains m "not found" = true →
        PDFProcessor.cleanup (DelOutcome.err m) = Except.ok ())
    ∧ (∀ m, strContains m "not found" = false →
        PDFProcessor.cleanup (DelOutcome.err m) = Except.error m)
    ∧ (∀ m, strContains m "not found" = false →
        (RAGProcessor.cleanup (DelOutcome.err m)).2
          = "warn: error deleting index")
    ∧ (∀ d, PDFProcessor.inlineReset d = Except.ok ()) := by
  refine ⟨?_, ?_, ?_, ?_, ?_⟩
  · intro d
    cases d with
    | ok => rfl
    | err m =>
      unfold RAGProcessor.cleanup
      by_cases h : strContains m "not found" <;> simp [h]
  · intro m h
    simp [PDFProcessor.cleanup, h]
  · intro m h
    simp [PDFProcessor.cleanup, h]
  · intro m h
    simp [RAGProcessor.cleanup, h]
  · intro d
    cases d <;> rfl

/-- Counterexample to C8 as stated: `PDFProcessor.cleanup` propagates a
delete failure that is not "not found". -/
theorem c8_counterexample :
    PDFProcessor.cleanup (DelOutcome.err "connection refused")
      = Except.error "connection refused" := rfl

/-- Witness for C8: a "not found" delete failure is swallowed. -/
theorem c8_reset_behaviour_witness :
    strContains "collection not found" "not found" = true
    ∧ PDFProcessor.cleanup (DelOutcome.err "collection not found")
        = Except.ok () :=
  ⟨by decide, c8_reset_behaviour.2.1 "collection not found" (by decide)⟩

/-- Claim C9: a retrieval call with no explicit filePath argument and no
recorded LastProcessedPath returns an empty result list with an empty
fileName (the no-document indication), as a plain value (no exception);
the effective document reference is the explicit filePath argument when
present (nonempty), else the stored LastProcessedPath. -/
theorem c9_no_document (query : String) (raw : List RawResult) :
    queryPdfExecute query none none raw
        = { results := [], query := query, fileName := "" }
    ∧ (∀ (s : String) (stored : Option String), s.isEmpty = false →
        resolvePdfPath (some s) stored = some s)
    ∧ (∀ p : String, p.isEmpty = false →
        resolvePdfPath none (some p) = some p)
    ∧ resolvePdfPath none none = none := by
  refine ⟨?_, ?_, ?_, rfl⟩
  · unfold queryPdfExecute
    by_cases h : (strTrim query).isEmpty <;>
      simp [h, resolvePdfPath, jsTruthyStr]
  · intro s stored h
    simp [resolvePdfPath, jsTruthyStr, h]
  · intro p h
    simp [resolvePdfPath, jsTruthyStr, h]

/-- Witness for C9 at concrete paths. -/
theorem c9_no_document_witness :
    ("doc.pdf".isEmpty = false)
    ∧ resolvePdfPath (some "doc.pdf") (some "old.pdf") = some "doc.pdf" :=
  ⟨rfl, (c9_no_document "q" []).2.1 "doc.pdf" (some "old.pdf") rfl⟩

/-- Claim C10: `setLastProcessedPdfPath` changes only the path and the
timestamp of the persisted record: the metadata field is preserved for
every prior state, and the stored path becomes the argument. -/
theorem c10_set_path_frame (store : Option PdfState) (pdfPath now : String) :
    (getPdfState (setLastProcessedPdfPath store pdfPath now)).metadata
        = (getPdfState store).metadata
    ∧ (getPdfState (setLastProcessedPdfPath store pdfPath now)).lastProcessedPdfPath
        = some pdfPath
    ∧ (getPdfState (setLastProcessedPdfPath store pdfPath now)).processingTimestamp
        = some now := by
  cases store <;> exact ⟨rfl, rfl, rfl⟩

/-- Claim C1 (amended): in `uploadPdfTool` the stored LastProcessedPath is
updated after the validation and existence checks but before processing,
so it equals the new file path after the call regardless of the processing
outcome; in `pdfOperationStep` it is updated even before the existence
check; only `initializePdf` stores the path strictly after a successful
run, leaving it unchanged on any failure. -/
theorem c1_last_path_update (filePath : String) (fileExists : Bool)
    (proc : Except String ProcOk) (stored : Option String) :
    (uploadPdfExecute filePath fileExists proc stored).2
        = (if filePath.isEmpty || !fileExists then stored else some filePath)
    ∧ (∀ (fpo : Option String) (ag : Except String String),
        (pdfOperationProcess fpo fileExists ag stored).2
          = (jsTruthyStr fpo).elim stored some)
    ∧ (∀ p : Except String Nat, initPdfOnStartup false p stored = stored)
    ∧ (∀ e : String, initPdfOnStartup true (Except.error e) stored = stored)
    ∧ (∀ n : Nat, initPdfOnStartup true (Except.ok n) stored
        = some defaultPdfPath) := by
  refine ⟨?_, ?_, ?_, ?_, ?_⟩
  · unfold uploadPdfExecute
    by_cases h1 : filePath.isEmpty
    · simp [h1]
    · by_cases h2 : fileExists
      · cases proc <;> simp [h1, h2]
      · simp [h1, h2]
  · intro fpo ag
    unfold pdfOperationProcess
    cases hj : jsTruthyStr fpo with
    | none => simp
    | some p =>
      by_cases h2 : fileExists
      · cases ag <;> simp [h2]
      · simp [h2]
  · intro p
    rfl
  · intro e
    rfl
  · intro n
    rfl

/-- Counterexample to C1 as stated: a run of `uploadPdfTool` that fails
during processing still leaves LastProcessedPath pointing at the new file,
not at its previous value. -/
theorem c1_counterexample :
    ((uploadPdfExecute "new.pdf" true (Except.error "embedding failed")
        (some "old.pdf")).1.success = false)
    ∧ (uploadPdfExecute "new.pdf" true (Except.error "embedding failed")
        (some "old.pdf")).2 = some "new.pdf"
    ∧ some "new.pdf" ≠ some "old.pdf" := by
  refine ⟨rfl, rfl, by decide⟩

end Chatbook
